import Mathlib

/-!
# FerricLink request-governance subsystem: a verification development

This file gives a shallow embedding, in Lean 4, of the two modules of the
FerricLink core that carry real algorithmic content:

* `crates/ferriclink-core/src/rate_limiters.rs` — the token-bucket rate
  limiter `InMemoryRateLimiter` (fields `requests_per_second`,
  `available_tokens`, `max_bucket_size`, `last`, `check_every_n_seconds`),
  its `consume` / `aacquire` operations, and the retry layer
  `AdvancedRateLimiter::acquire_with_retry` with its `RateLimiterConfig`.
* `crates/ferriclink-core/src/caches.rs` — the LRU-bounded `InMemoryCache`
  (a `HashMap<String, CacheEntry>` plus `CacheStats`), its
  `lookup` / `update` / `clear` operations in both the synchronous
  (`try_write`) and asynchronous (`write().await`) forms, and the
  TTL wrapper `TtlCache`.

Modelling conventions:

* `f64` quantities (tokens, rates, seconds) are embedded as `ℚ`;
  `Instant` timestamps in the rate limiter are `ℚ` seconds, and in the
  cache they are draws from a logical clock `ℕ` carried in the state
  (each operation reads the clock as `Instant::now()` and the clock
  strictly increases from one operation to the next, reflecting the
  monotonicity of `Instant`).
* The `HashMap` is embedded as an association list with unique keys;
  `insert` replaces in place, `remove` deletes the (unique) matching
  entry, and iteration in the LRU scan walks the list in order — the
  unspecified `HashMap` iteration order is irrelevant at the points we
  prove, because the scanned `last_accessed` stamps are pairwise
  distinct there.
* Loops that can run unboundedly (`aacquire(blocking = true)` and the
  retry loop of `acquire_with_retry`) take a fuel parameter; exhausting
  the fuel yields a distinguished "still waiting" outcome, never a
  success or failure the Rust code would not produce.
* Fallible Rust paths are explicit: the `try_write` lock acquisition of
  the synchronous cache entry points takes a `contended` flag and
  returns `Except`, and constructor `assert!`s become `Option`-returning
  smart constructors.
-/

namespace FerricLink

/-! ## Token bucket rate limiter (`rate_limiters.rs`) -/

/-- Immutable configuration of an `InMemoryRateLimiter`:
`requests_per_second`, `check_every_n_seconds`, `max_bucket_size`. -/
structure RLConfig where
  requests_per_second : ℚ
  check_every_n_seconds : ℚ
  max_bucket_size : ℚ
deriving DecidableEq, Repr

/-- Mutable state of an `InMemoryRateLimiter`: the token count behind
`available_tokens: Arc<Mutex<f64>>` and the timestamp behind
`last: Arc<Mutex<Option<Instant>>>`. -/
structure RLState where
  available_tokens : ℚ
  last : Option ℚ
deriving DecidableEq, Repr

/-- `InMemoryRateLimiter::new`: asserts `max_bucket_size ≥ 1`,
`requests_per_second > 0`, `check_every_n_seconds > 0` (panic modelled as
`none`), and starts the bucket with exactly `1.0` token and `last = None`. -/
def newLimiter (requests_per_second check_every_n_seconds max_bucket_size : ℚ) :
    Option (RLConfig × RLState) :=
  if 1 ≤ max_bucket_size ∧ 0 < requests_per_second ∧ 0 < check_every_n_seconds then
    some (⟨requests_per_second, check_every_n_seconds, max_bucket_size⟩,
          ⟨1, none⟩)
  else
    none

/-- The refill phase of `InMemoryRateLimiter::consume` (lines 209–218 of
`rate_limiters.rs`): compute `elapsed = now - last`; if
`elapsed * requests_per_second ≥ 1.0` add that many tokens and move `last`
to `now`; then clamp the tokens to `max_bucket_size`.  Returns the clamped
token count and the (possibly updated) `last` timestamp. -/
def refill (cfg : RLConfig) (tokens lastT now : ℚ) : ℚ × ℚ :=
  let elapsed := now - lastT
  let step :=
    if 1 ≤ elapsed * cfg.requests_per_second then
      (tokens + elapsed * cfg.requests_per_second, now)
    else
      (tokens, lastT)
  (min step.1 cfg.max_bucket_size, step.2)

/-- `InMemoryRateLimiter::consume`: take `now`, set `last := now` on the
first call, run the refill-and-clamp phase, then consume one token if at
least one is available.  Returns the acquired flag and the new state. -/
def consume (cfg : RLConfig) (s : RLState) (now : ℚ) : Bool × RLState :=
  let lastT := s.last.getD now
  let r := refill cfg s.available_tokens lastT now
  if 1 ≤ r.1 then
    (true, ⟨r.1 - 1, some r.2⟩)
  else
    (false, ⟨r.1, some r.2⟩)

/-- A finite sequence of `consume` calls at the given instants (each
`acquire`/`aacquire`, blocking or not, is observationally such a
sequence). -/
def consumeSeq (cfg : RLConfig) : List ℚ → RLState → RLState
  | [], s => s
  | t :: ts, s => consumeSeq cfg ts (consume cfg s t).2

/-- Outcome of one `aacquire` call under a fuel bound: the tokens were
acquired at some instant, the attempt was denied (non-blocking mode only),
or the blocking loop is still waiting when the fuel runs out. -/
inductive AcqResult where
  | acquired (s : RLState) (t : ℚ)
  | denied (s : RLState) (t : ℚ)
  | waiting (s : RLState) (t : ℚ)
deriving DecidableEq, Repr

/-- The blocking loop of `InMemoryRateLimiter::aacquire`: `consume`; on
success return; on failure sleep `check_every_n_seconds` and retry, with
no retry limit (fuel only bounds the observation window). -/
def aacquireBlocking (cfg : RLConfig) : ℕ → RLState → ℚ → AcqResult
  | 0, s, now => .waiting s now
  | Nat.succ fuel, s, now =>
    let r := consume cfg s now
    if r.1 then .acquired r.2 now
    else aacquireBlocking cfg fuel r.2 (now + cfg.check_every_n_seconds)

/-- `InMemoryRateLimiter::aacquire`: non-blocking mode calls `consume`
exactly once; blocking mode enters the unbounded polling loop. -/
def aacquire (cfg : RLConfig) (blocking : Bool) (fuel : ℕ) (s : RLState) (now : ℚ) :
    AcqResult :=
  if blocking then
    aacquireBlocking cfg fuel s now
  else
    let r := consume cfg s now
    if r.1 then .acquired r.2 now else .denied r.2 now

/-- `RateLimiterConfig` of the `AdvancedRateLimiter` (durations in `ℚ`
seconds). -/
structure RetryConfig where
  use_exponential_backoff : Bool
  max_backoff_duration : ℚ
  initial_backoff_duration : ℚ
  max_retries : ℕ
  log_events : Bool
deriving DecidableEq, Repr

/-- Outcome of `AdvancedRateLimiter::acquire_with_retry`: `Ok(true)`,
`Ok(false)`, the `FerricLinkError::model_rate_limit` error, or fuel
exhaustion of a loop the Rust code would still be running. -/
inductive RetryResult where
  | success (s : RLState) (t : ℚ)
  | failure (s : RLState) (t : ℚ)
  | rateLimited
  | waiting (s : RLState) (t : ℚ)
deriving DecidableEq, Repr

/-- `AdvancedRateLimiter::acquire_with_retry`: loop on
`inner.aacquire(blocking)`; on `Ok(true)` return success; on `Ok(false)`
return failure if non-blocking, else fail with the rate-limit error once
`retries ≥ max_retries`, otherwise sleep the backoff, double it (capped at
`max_backoff_duration`) when exponential backoff is on, bump `retries`,
and loop.  `innerFuel` bounds each inner blocking loop, the main fuel
argument bounds the outer retry loop. -/
def acquireWithRetry (cfg : RLConfig) (rc : RetryConfig) (blocking : Bool)
    (innerFuel : ℕ) : ℕ → ℕ → ℚ → RLState → ℚ → RetryResult
  | 0, _, _, s, now => .waiting s now
  | Nat.succ fuel, retries, backoff, s, now =>
    match aacquire cfg blocking innerFuel s now with
    | .acquired s' t => .success s' t
    | .waiting s' t => .waiting s' t
    | .denied s' t =>
      if !blocking then .failure s' t
      else if rc.max_retries ≤ retries then .rateLimited
      else
        let backoff' :=
          if rc.use_exponential_backoff then
            min (backoff * 2) rc.max_backoff_duration
          else backoff
        acquireWithRetry cfg rc blocking innerFuel fuel (retries + 1) backoff' s' (t + backoff)

/-- Whether a `RetryResult` is the distinguished rate-limit-exceeded
error. -/
def RetryResult.isRateLimited : RetryResult → Bool
  | .rateLimited => true
  | _ => false

/-- Whether an `AcqResult` is a denial. -/
def AcqResult.isDenied : AcqResult → Bool
  | .denied _ _ => true
  | _ => false

/-! ## In-memory LRU cache (`caches.rs`)

The payload type of `CachedGenerations = Vec<Generation>` is opaque to the
cache, so the embedding is parametric in a payload type `α` (a cached
value is a `List α`). -/

/-- `CacheEntry`: payload plus bookkeeping metadata. -/
structure CacheEntry (α : Type) where
  data : List α
  created_at : ℕ
  last_accessed : ℕ
  access_count : ℕ
deriving DecidableEq, Repr

/-- `CacheStats`: monitoring counters of an `InMemoryCache`. -/
structure CacheStats where
  hits : ℕ
  misses : ℕ
  updates : ℕ
  clears : ℕ
  current_size : ℕ
  max_size_reached : ℕ
deriving DecidableEq, Repr

/-- `CacheStats::default()`. -/
def CacheStats.init : CacheStats := ⟨0, 0, 0, 0, 0, 0⟩

/-- The `HashMap<String, CacheEntry>` behind an `InMemoryCache`, embedded
as an association list with unique keys. -/
abbrev CacheMap (α : Type) := List (String × CacheEntry α)

/-- `HashMap::get` / `get_mut` lookup of the entry stored at a key. -/
def getEntry (k : String) : CacheMap α → Option (CacheEntry α)
  | [] => none
  | kv :: rest => if kv.1 = k then some kv.2 else getEntry k rest

/-- `HashMap::insert`: replace the entry in place when the key is present,
append it otherwise. -/
def insertEntry (k : String) (e : CacheEntry α) : CacheMap α → CacheMap α
  | [] => [(k, e)]
  | kv :: rest => if kv.1 = k then (k, e) :: rest else kv :: insertEntry k e rest

/-- `HashMap::remove`: delete the (unique) entry stored at a key. -/
def removeEntry (k : String) : CacheMap α → CacheMap α
  | [] => []
  | kv :: rest => if kv.1 = k then rest else kv :: removeEntry k rest

/-- In-place mutation of the entry at a key (the effect of mutating
through `HashMap::get_mut`). -/
def modifyEntry (k : String) (f : CacheEntry α → CacheEntry α) : CacheMap α → CacheMap α
  | [] => []
  | kv :: rest => if kv.1 = k then (kv.1, f kv.2) :: rest else kv :: modifyEntry k f rest

/-- Full state of an `InMemoryCache` together with the ambient monotone
clock from which every `Instant::now()` of an operation is drawn. -/
structure CacheState (α : Type) where
  cache : CacheMap α
  max_size : Option ℕ
  stats : CacheStats
  clock : ℕ
deriving DecidableEq, Repr

/-- `InMemoryCache::with_max_size`: asserts `max_size ≠ Some(0)` (panic
modelled as `none`) and starts with an empty map and default stats. -/
def withMaxSize (α : Type) (max_size : Option ℕ) (clock : ℕ) :
    Option (CacheState α) :=
  match max_size with
  | some 0 => none
  | _ => some ⟨[], max_size, CacheStats.init, clock⟩

/-- `InMemoryCache::generate_key`: concatenate prompt and llm_string with
the `"|||"` delimiter. -/
def generateKey (prompt llm_string : String) : String :=
  prompt ++ "|||" ++ llm_string

/-- The LRU scan of `InMemoryCache::update` (lines 302–310 of `caches.rs`):
fold over the map starting from `(oldest_key = None, oldest_time = now)`,
replacing the accumulator whenever an entry's `last_accessed` is strictly
older. -/
def oldestScan : CacheMap α → Option String × ℕ → Option String × ℕ
  | [], acc => acc
  | kv :: rest, acc =>
    oldestScan rest
      (if kv.2.last_accessed < acc.2 then (some kv.1, kv.2.last_accessed) else acc)

/-- The eviction step of `InMemoryCache::update`: when `max_size` is set
and the map has reached it, remove the key found by the LRU scan (if the
scan found one). -/
def evictIfNeeded (s : CacheState α) : CacheMap α :=
  match s.max_size with
  | some m =>
    if m ≤ s.cache.length then
      match (oldestScan s.cache (none, s.clock)).1 with
      | some k => removeEntry k s.cache
      | none => s.cache
    else s.cache
  | none => s.cache

/-- The post-lock body of the synchronous `InMemoryCache::lookup`
(lines 272–289 of `caches.rs`): on a hit refresh `last_accessed`, bump
`access_count` and the hit counter and return the payload; on a miss bump
the miss counter. -/
def lookupBody (s : CacheState α) (prompt llm_string : String) :
    Option (List α) × CacheState α :=
  let key := generateKey prompt llm_string
  match getEntry key s.cache with
  | some entry =>
    (some entry.data,
     { s with
        cache := modifyEntry key
          (fun e => { e with last_accessed := s.clock, access_count := e.access_count + 1 })
          s.cache
        stats := { s.stats with hits := s.stats.hits + 1 }
        clock := s.clock + 1 })
  | none =>
    (none,
     { s with
        stats := { s.stats with misses := s.stats.misses + 1 }
        clock := s.clock + 1 })

/-- The post-lock body of the synchronous `InMemoryCache::update`
(lines 291–330 of `caches.rs`): evict if at capacity, insert a fresh
entry, bump the update counter and the `max_size_reached` gauge. -/
def updateBody (s : CacheState α) (prompt llm_string : String) (return_val : List α) :
    CacheState α :=
  let key := generateKey prompt llm_string
  let cache1 := evictIfNeeded s
  let entry : CacheEntry α :=
    { data := return_val, created_at := s.clock, last_accessed := s.clock, access_count := 0 }
  let cache2 := insertEntry key entry cache1
  { s with
      cache := cache2
      stats := { s.stats with
                  updates := s.stats.updates + 1
                  max_size_reached := max s.stats.max_size_reached cache2.length }
      clock := s.clock + 1 }

/-- The post-lock body of the synchronous `InMemoryCache::clear`
(lines 332–341 of `caches.rs`): empty the map and bump the clear
counter. -/
def clearBody (s : CacheState α) : CacheState α :=
  { s with
      cache := []
      stats := { s.stats with clears := s.stats.clears + 1 }
      clock := s.clock + 1 }

/-- `InMemoryCache::lookup` (synchronous): `try_write` on the two locks —
modelled by the `contended` flag — then the shared body.  A held lock
yields the `FerricLinkError::runtime` lock error. -/
def lookup (contended : Bool) (s : CacheState α) (prompt llm_string : String) :
    Except Unit (Option (List α) × CacheState α) :=
  if contended then .error () else .ok (lookupBody s prompt llm_string)

/-- `InMemoryCache::update` (synchronous). -/
def update (contended : Bool) (s : CacheState α) (prompt llm_string : String)
    (return_val : List α) : Except Unit (CacheState α) :=
  if contended then .error () else .ok (updateBody s prompt llm_string return_val)

/-- `InMemoryCache::clear` (synchronous). -/
def clear (contended : Bool) (s : CacheState α) : Except Unit (CacheState α) :=
  if contended then .error () else .ok (clearBody s)

/-- `InMemoryCache::alookup` (asynchronous, lines 343–358 of `caches.rs`):
awaits the locks (no failure path), then: on a hit refresh
`last_accessed`, bump `access_count` and the hit counter and return the
payload; on a miss bump the miss counter. -/
def alookup (s : CacheState α) (prompt llm_string : String) :
    Option (List α) × CacheState α :=
  let key := generateKey prompt llm_string
  match getEntry key s.cache with
  | some entry =>
    (some entry.data,
     { s with
        cache := modifyEntry key
          (fun e => { e with last_accessed := s.clock, access_count := e.access_count + 1 })
          s.cache
        stats := { s.stats with hits := s.stats.hits + 1 }
        clock := s.clock + 1 })
  | none =>
    (none,
     { s with
        stats := { s.stats with misses := s.stats.misses + 1 }
        clock := s.clock + 1 })

/-- `InMemoryCache::aupdate` (asynchronous, lines 360–397 of `caches.rs`):
awaits the locks, evicts if at capacity, inserts a fresh entry, bumps the
update counter and the `max_size_reached` gauge. -/
def aupdate (s : CacheState α) (prompt llm_string : String) (return_val : List α) :
    CacheState α :=
  let key := generateKey prompt llm_string
  let cache1 := evictIfNeeded s
  let entry : CacheEntry α :=
    { data := return_val, created_at := s.clock, last_accessed := s.clock, access_count := 0 }
  let cache2 := insertEntry key entry cache1
  { s with
      cache := cache2
      stats := { s.stats with
                  updates := s.stats.updates + 1
                  max_size_reached := max s.stats.max_size_reached cache2.length }
      clock := s.clock + 1 }

/-- `InMemoryCache::aclear` (asynchronous, lines 399–406 of `caches.rs`):
awaits the locks, empties the map and bumps the clear counter. -/
def aclear (s : CacheState α) : CacheState α :=
  { s with
      cache := []
      stats := { s.stats with clears := s.stats.clears + 1 }
      clock := s.clock + 1 }

/-- `InMemoryCache::stats`: a snapshot of the counters with
`current_size` recomputed from the live map. -/
def statsOf (s : CacheState α) : CacheStats :=
  { s.stats with current_size := s.cache.length }

/-- A sequence of `update` operations (prompt, llm_string, value), applied
in order through the shared body. -/
def updateSeq (s : CacheState α) : List (String × String × List α) → CacheState α
  | [] => s
  | (p, l, v) :: ops => updateSeq (updateBody s p l v) ops

/-! ## TTL cache (`TtlCache` in `caches.rs`) -/

/-- `TtlCache`: the wrapped `InMemoryCache` plus the default TTL (in the
same logical-clock units as the timestamps). -/
structure TtlState (α : Type) where
  inner : CacheState α
  default_ttl : ℕ
deriving DecidableEq, Repr

/-- `TtlCache::is_expired`: `entry.created_at.elapsed() > ttl`. -/
def isExpired (entry : CacheEntry α) (ttl : ℕ) (now : ℕ) : Bool :=
  ttl < now - entry.created_at

/-- `TtlCache::lookup` / `alookup` (identical bodies, lines 452–480 and
490–516 of `caches.rs`): on a present entry test expiry; expired entries
are removed and counted as misses, live entries are refreshed via a
clone-and-`insert` and counted as hits. -/
def ttlLookup (c : TtlState α) (prompt llm_string : String) :
    Option (List α) × TtlState α :=
  let key := generateKey prompt llm_string
  let s := c.inner
  match getEntry key s.cache with
  | some entry =>
    if isExpired entry c.default_ttl s.clock then
      (none,
       { c with inner :=
          { s with
              cache := removeEntry key s.cache
              stats := { s.stats with misses := s.stats.misses + 1 }
              clock := s.clock + 1 } })
    else
      let entry' :=
        { entry with last_accessed := s.clock, access_count := entry.access_count + 1 }
      (some entry.data,
       { c with inner :=
          { s with
              cache := insertEntry key entry' s.cache
              stats := { s.stats with hits := s.stats.hits + 1 }
              clock := s.clock + 1 } })
  | none =>
    (none,
     { c with inner :=
        { s with
            stats := { s.stats with misses := s.stats.misses + 1 }
            clock := s.clock + 1 } })

/-- `TtlCache::update` / `aupdate`: pure delegation to the inner cache
(no expiry sweep). -/
def ttlUpdate (c : TtlState α) (prompt llm_string : String) (return_val : List α) :
    TtlState α :=
  { c with inner := updateBody c.inner prompt llm_string return_val }

/-- The passage of wall-clock time (e.g. a `sleep`) between operations:
only the ambient clock advances. -/
def passTime (c : TtlState α) (d : ℕ) : TtlState α :=
  { c with inner := { c.inner with clock := c.inner.clock + d } }

/-! ## Concrete scenario states from §8 of the spec -/

/-- The LRU-eviction scenario store: `max_size = 2`, fresh at clock 0. -/
def lruStore0 : CacheState ℕ := ⟨[], some 2, CacheStats.init, 0⟩

/-- The LRU scenario store after inserting keys `A`, `B` in order. -/
def lruStore2 : CacheState ℕ :=
  updateBody (updateBody lruStore0 "A" "llm" [1]) "B" "llm" [2]

/-- The LRU scenario store after inserting keys `A`, `B`, `C` in order
with no intervening lookups. -/
def lruStore3 : CacheState ℕ :=
  updateBody lruStore2 "C" "llm" [3]

/-- The TTL-expiration scenario store: TTL `100` time units, no size
bound, fresh at clock 0. -/
def ttlStore0 : TtlState ℕ := ⟨⟨[], none, CacheStats.init, 0⟩, 100⟩

/-- The TTL scenario store after inserting `x`. -/
def ttlStore1 : TtlState ℕ := ttlUpdate ttlStore0 "x" "llm" [7]

/-- The TTL scenario store after the immediate (hit) lookup of `x` and a
further 150 time units of sleep, at which point `x` is expired but still
stored. -/
def ttlStoreExp : TtlState ℕ := passTime (ttlLookup ttlStore1 "x" "llm").2 150

/-! ## Well-formedness invariants of reachable cache states -/

/-- Keys of a cache map. -/
def keysOf (l : CacheMap α) : List String := l.map Prod.fst

/-- Every timestamp stored in the map is strictly older than the ambient
clock (true of every reachable state, since `Instant` is monotone and the
clock advances past each operation's `now`). -/
def TimesOK (s : CacheState α) : Prop :=
  ∀ kv ∈ s.cache, kv.2.last_accessed < s.clock ∧ kv.2.created_at < s.clock

/-- The stored `last_accessed` stamps are pairwise distinct (each
operation stamps at most one entry with its own fresh `now`). -/
def DistinctLA (s : CacheState α) : Prop :=
  s.cache.Pairwise (fun a b => a.2.last_accessed ≠ b.2.last_accessed)

/-- Well-formedness of a reachable `InMemoryCache` state. -/
def WF (s : CacheState α) : Prop :=
  (keysOf s.cache).Nodup ∧ TimesOK s

instance (s : CacheState α) : Decidable (TimesOK s) := by
  unfold TimesOK; infer_instance

instance (s : CacheState α) : Decidable (DistinctLA s) := by
  unfold DistinctLA
  exact List.instDecidablePairwise _

instance (s : CacheState α) : Decidable (WF s) := by
  unfold WF; infer_instance

/-! ## Lemmas about the token bucket -/

/-- One `consume` keeps the token count within `[0, max_bucket_size]`,
provided the bucket size is at least one and the count was nonnegative. -/
theorem consume_bounds (cfg : RLConfig) (hmbs : 1 ≤ cfg.max_bucket_size)
    (s : RLState) (hpos : 0 ≤ s.available_tokens) (now : ℚ) :
    0 ≤ (consume cfg s now).2.available_tokens ∧
      (consume cfg s now).2.available_tokens ≤ cfg.max_bucket_size := by
  simp only [consume, refill]
  split_ifs with h1 h2 h2 <;>
    constructor <;>
    simp only [RLState.mk.injEq] <;>
    first
      | exact min_le_right _ _
      | (refine le_min ?_ ?_ <;> linarith)
      | (have m := min_le_right (s.available_tokens + (now - s.last.getD now) * cfg.requests_per_second) cfg.max_bucket_size; linarith)
      | (have m := min_le_right s.available_tokens cfg.max_bucket_size; linarith)

/-- The token bounds are preserved along any finite sequence of
`consume`s. -/
theorem consumeSeq_bounds (cfg : RLConfig) (hmbs : 1 ≤ cfg.max_bucket_size)
    (ts : List ℚ) (s : RLState) (hpos : 0 ≤ s.available_tokens)
    (hub : s.available_tokens ≤ cfg.max_bucket_size) :
    0 ≤ (consumeSeq cfg ts s).available_tokens ∧
      (consumeSeq cfg ts s).available_tokens ≤ cfg.max_bucket_size := by
  induction ts generalizing s with
  | nil => exact ⟨hpos, hub⟩
  | cons t ts ih =>
    exact ih (consume cfg s t).2 (consume_bounds cfg hmbs s hpos t).1
      (consume_bounds cfg hmbs s hpos t).2

/-- The blocking polling loop of `aacquire` can only report `acquired` or
`waiting`; it never returns a denial to its caller. -/
theorem aacquireBlocking_never_denied (cfg : RLConfig) :
    ∀ (fuel : ℕ) (s : RLState) (now : ℚ),
      (aacquireBlocking cfg fuel s now).isDenied = false := by
  intro fuel
  induction fuel with
  | zero => intro s now; rfl
  | succ n ih =>
    intro s now
    simp only [aacquireBlocking]
    split_ifs
    · rfl
    · exact ih _ _

/-! ## Claim theorems about the rate limiter -/

/-- C3 (confirmed): for every `InMemoryRateLimiter` accepted by the
constructor (`requests_per_second > 0`, `max_bucket_size ≥ 1`), the
observable `available_tokens` satisfies
`0 ≤ available_tokens ≤ max_bucket_size` in the freshly constructed
state and after every finite sequence of `consume`s — and hence after
every finite sequence of `acquire`/`aacquire` calls, since each of those
is observationally a finite sequence of `consume`s. -/
theorem rateLimiter_token_bounds (rps cps mbs : ℚ) (cfg : RLConfig) (s₀ : RLState)
    (h : newLimiter rps cps mbs = some (cfg, s₀)) (ts : List ℚ) :
    (0 ≤ s₀.available_tokens ∧ s₀.available_tokens ≤ cfg.max_bucket_size) ∧
    (0 ≤ (consumeSeq cfg ts s₀).available_tokens ∧
       (consumeSeq cfg ts s₀).available_tokens ≤ cfg.max_bucket_size) := by
  unfold newLimiter at h
  split_ifs at h with hc
  obtain ⟨hmbs, -, -⟩ := hc
  simp only [Option.some.injEq, Prod.mk.injEq] at h
  obtain ⟨hcfg, hs⟩ := h
  subst hcfg
  subst hs
  refine ⟨⟨by norm_num, hmbs⟩, ?_⟩
  exact consumeSeq_bounds _ hmbs ts _ (by norm_num) hmbs

/-- Closed instance of `rateLimiter_token_bounds` at
`requests_per_second = 1`, `check = 1/10`, `max_bucket_size = 2` and the
call sequence `[0, 1/100]`. -/
theorem rateLimiter_token_bounds_inst :
    (0 ≤ (⟨1, none⟩ : RLState).available_tokens ∧
       (⟨1, none⟩ : RLState).available_tokens ≤
         (⟨1, 1/10, 2⟩ : RLConfig).max_bucket_size) ∧
    (0 ≤ (consumeSeq ⟨1, 1/10, 2⟩ [0, 1/100] ⟨1, none⟩).available_tokens ∧
       (consumeSeq ⟨1, 1/10, 2⟩ [0, 1/100] ⟨1, none⟩).available_tokens ≤
         (⟨1, 1/10, 2⟩ : RLConfig).max_bucket_size) :=
  rateLimiter_token_bounds 1 (1/10) 2 ⟨1, 1/10, 2⟩ ⟨1, none⟩ (by norm_num [newLimiter])
    [0, 1/100]

/-- C4 (confirmed): on a `consume` whose `last` is already set, if at
least one whole token's worth of time has elapsed then exactly
`elapsed * requests_per_second` tokens are added (and then clamped at
`max_bucket_size`) and `last` moves to `now`; if less has elapsed, the
refill phase leaves tokens and `last` untouched (given the token-bound
invariant, the clamp is a no-op), so `consume` never increases the token
count and never banks fractional elapsed time. -/
theorem consume_refill_granularity (cfg : RLConfig) (s : RLState) (now lastT : ℚ)
    (hl : s.last = some lastT) (hub : s.available_tokens ≤ cfg.max_bucket_size) :
    (1 ≤ (now - lastT) * cfg.requests_per_second →
       refill cfg s.available_tokens lastT now =
         (min (s.available_tokens + (now - lastT) * cfg.requests_per_second)
            cfg.max_bucket_size, now) ∧
       (consume cfg s now).2.last = some now) ∧
    ((now - lastT) * cfg.requests_per_second < 1 →
       refill cfg s.available_tokens lastT now = (s.available_tokens, lastT) ∧
       (consume cfg s now).2.last = some lastT ∧
       (consume cfg s now).2.available_tokens ≤ s.available_tokens) := by
  constructor
  · intro hge
    have hr : refill cfg s.available_tokens lastT now =
        (min (s.available_tokens + (now - lastT) * cfg.requests_per_second)
           cfg.max_bucket_size, now) := by
      simp only [refill]
      rw [if_pos hge]
    refine ⟨hr, ?_⟩
    simp only [consume, hl, Option.getD_some, hr]
    split_ifs <;> rfl
  · intro hlt
    have hr : refill cfg s.available_tokens lastT now = (s.available_tokens, lastT) := by
      simp only [refill]
      rw [if_neg (not_le.mpr hlt), min_eq_left hub]
    refine ⟨hr, ?_⟩
    simp only [consume, hl, Option.getD_some, hr]
    split_ifs with hc
    · exact ⟨rfl, by show s.available_tokens - 1 ≤ s.available_tokens; linarith⟩
    · exact ⟨rfl, le_refl _⟩

/-- Closed instance of `consume_refill_granularity`: with rate `1`,
bucket `10`, state `(2, last = 0)`: at `now = 5` the refill adds exactly
`5` tokens and moves `last`; at `now = 1/2` nothing changes. -/
theorem consume_refill_granularity_inst :
    (refill ⟨1, 1, 10⟩ 2 0 5 = (7, 5) ∧
       (consume ⟨1, 1, 10⟩ ⟨2, some 0⟩ 5).2.last = some 5) ∧
    (refill ⟨1, 1, 10⟩ 2 0 (1/2) = (2, 0) ∧
       (consume ⟨1, 1, 10⟩ ⟨2, some 0⟩ (1/2)).2.last = some 0 ∧
       (consume ⟨1, 1, 10⟩ ⟨2, some 0⟩ (1/2)).2.available_tokens ≤ 2) := by
  have h₁ := consume_refill_granularity ⟨1, 1, 10⟩ ⟨2, some 0⟩ 5 0 rfl (by norm_num)
  have h₂ := consume_refill_granularity ⟨1, 1, 10⟩ ⟨2, some 0⟩ (1/2) 0 rfl (by norm_num)
  refine ⟨?_, h₂.2 (by norm_num)⟩
  have h := h₁.1 (by norm_num)
  rw [h.1]
  exact ⟨by norm_num, h.2⟩

/-- C7 (confirmed): every limiter the constructor accepts starts with
exactly one available token; the first `consume` (at any instant, on any
`max_bucket_size ≥ 1`) therefore succeeds and leaves zero tokens, and an
immediately following `consume` (any second instant representing less
than one token's worth of elapsed time) fails — no initial burst. -/
theorem fresh_limiter_first_acquire (rps cps mbs : ℚ) (cfg : RLConfig) (s₀ : RLState)
    (h : newLimiter rps cps mbs = some (cfg, s₀)) (t0 t1 : ℚ)
    (himm : (t1 - t0) * cfg.requests_per_second < 1) :
    s₀.available_tokens = 1 ∧
    consume cfg s₀ t0 = (true, ⟨0, some t0⟩) ∧
    (consume cfg (consume cfg s₀ t0).2 t1).1 = false := by
  unfold newLimiter at h
  split_ifs at h with hc
  obtain ⟨hmbs, hrps, -⟩ := hc
  simp only [Option.some.injEq, Prod.mk.injEq] at h
  obtain ⟨hcfg, hs⟩ := h
  subst hcfg
  subst hs
  have h0le : (0 : ℚ) ≤ mbs := le_trans zero_le_one hmbs
  have hrf1 : refill ⟨rps, cps, mbs⟩ 1 t0 t0 = (1, t0) := by
    simp only [refill]
    rw [sub_self, zero_mul, if_neg (by norm_num)]
    exact Prod.ext (min_eq_left hmbs) rfl
  have e1 : consume ⟨rps, cps, mbs⟩ ⟨1, none⟩ t0 = (true, ⟨0, some t0⟩) := by
    simp only [consume, Option.getD_none, hrf1]
    norm_num
  have hrf2 : refill ⟨rps, cps, mbs⟩ 0 t0 t1 = (0, t0) := by
    simp only [refill]
    rw [if_neg (not_le.mpr himm)]
    exact Prod.ext (min_eq_left h0le) rfl
  refine ⟨rfl, e1, ?_⟩
  rw [e1]
  simp only [consume, Option.getD_some, hrf2]
  norm_num

/-- Closed instance of `fresh_limiter_first_acquire` at rate `1`,
check interval `1/10`, bucket size `5`, instants `0` and `1/100`. -/
theorem fresh_limiter_first_acquire_inst :
    (⟨1, none⟩ : RLState).available_tokens = 1 ∧
    consume ⟨1, 1/10, 5⟩ ⟨1, none⟩ 0 = (true, ⟨0, some 0⟩) ∧
    (consume ⟨1, 1/10, 5⟩ (consume ⟨1, 1/10, 5⟩ ⟨1, none⟩ 0).2 (1/100)).1 = false :=
  fresh_limiter_first_acquire 1 (1/10) 5 ⟨1, 1/10, 5⟩ ⟨1, none⟩ (by norm_num [newLimiter])
    0 (1/100) (by norm_num)

set_option maxHeartbeats 1600000 in
/-- C1 (code bug): `acquire_with_retry(blocking = true)` can never return
the rate-limit-exceeded error, because the `Ok(false)` branch that raises
it is unreachable — the inner `aacquire(true)` polls forever and never
reports a denial.  In particular, in the spec's retry-exhaustion scenario
(`rate = 0.5/s`, bucket size `1`, `max_retries = 2`, initial backoff
`10 ms`), three rapid blocking acquisitions all return `Ok(true)`: the
second and third simply wait about two seconds each (the successes below
are at instants `0`, `2.01 s` and `4.02 s`). -/
theorem acquire_with_retry_blocking_never_rate_limited :
    (∀ (cfg : RLConfig) (rc : RetryConfig) (innerFuel fuel retries : ℕ)
       (backoff : ℚ) (s : RLState) (now : ℚ),
       (acquireWithRetry cfg rc true innerFuel fuel retries backoff s now).isRateLimited
         = false) ∧
    (acquireWithRetry ⟨1/2, 1/10, 1⟩ ⟨true, 60, 1/100, 2, false⟩ true 30 5 0 (1/100)
        ⟨1, none⟩ 0 = .success ⟨0, some 0⟩ 0 ∧
     acquireWithRetry ⟨1/2, 1/10, 1⟩ ⟨true, 60, 1/100, 2, false⟩ true 30 5 0 (1/100)
        ⟨0, some 0⟩ (1/100) = .success ⟨0, some (201/100)⟩ (201/100) ∧
     acquireWithRetry ⟨1/2, 1/10, 1⟩ ⟨true, 60, 1/100, 2, false⟩ true 30 5 0 (1/100)
        ⟨0, some (201/100)⟩ (202/100) = .success ⟨0, some (201/50)⟩ (201/50)) := by
  constructor
  · intro cfg rc innerFuel fuel retries backoff s now
    cases fuel with
    | zero => rfl
    | succ n =>
      have hb := aacquireBlocking_never_denied cfg innerFuel s now
      cases hd : aacquire cfg true innerFuel s now with
      | acquired s' t' => simp only [acquireWithRetry, hd]; rfl
      | denied s' t' =>
        exfalso
        have he : aacquire cfg true innerFuel s now = aacquireBlocking cfg innerFuel s now := rfl
        rw [he] at hd
        rw [hd] at hb
        simp [AcqResult.isDenied] at hb
      | waiting s' t' => simp only [acquireWithRetry, hd]; rfl
  · refine ⟨?_, ?_, ?_⟩ <;>
      norm_num [acquireWithRetry, aacquire, aacquireBlocking, consume, refill]

/-! ## Lemmas about the association-list cache map -/

theorem getEntry_insertEntry_self (k : String) (e : CacheEntry α) (l : CacheMap α) :
    getEntry k (insertEntry k e l) = some e := by
  induction l with
  | nil => simp [insertEntry, getEntry]
  | cons kv rest ih =>
    simp only [insertEntry]
    split_ifs with h
    · simp [getEntry]
    · simp only [getEntry]
      rw [if_neg h]
      exact ih

theorem getEntry_nil (k : String) : getEntry k ([] : CacheMap α) = none := rfl

theorem removeEntry_sublist (k : String) (l : CacheMap α) :
    (removeEntry k l).Sublist l := by
  induction l with
  | nil => simp [removeEntry]
  | cons kv rest ih =>
    simp only [removeEntry]
    split_ifs with h
    · exact List.sublist_cons_self kv rest
    · exact ih.cons₂ kv

theorem mem_of_mem_removeEntry {kv : String × CacheEntry α} {k : String} {l : CacheMap α}
    (h : kv ∈ removeEntry k l) : kv ∈ l :=
  (removeEntry_sublist k l).subset h

theorem length_removeEntry_of_mem {k : String} {l : CacheMap α} (h : k ∈ keysOf l) :
    (removeEntry k l).length + 1 = l.length := by
  induction l with
  | nil => simp [keysOf] at h
  | cons kv rest ih =>
    simp only [removeEntry]
    split_ifs with hk
    · simp
    · have hr : k ∈ keysOf rest := by
        simp only [keysOf, List.map_cons, List.mem_cons] at h
        rcases h with h | h
        · exact absurd h.symm hk
        · exact h
      simp only [List.length_cons, ih hr]

theorem mem_keysOf_removeEntry_of_ne {k' k : String} {l : CacheMap α}
    (h : k' ∈ keysOf l) (hne : k' ≠ k) : k' ∈ keysOf (removeEntry k l) := by
  induction l with
  | nil => simp [keysOf] at h
  | cons kv rest ih =>
    simp only [keysOf, List.map_cons, List.mem_cons] at h
    simp only [removeEntry]
    split_ifs with hk
    · rcases h with h | h
      · exact absurd (h.trans hk) hne
      · exact h
    · rcases h with h | h
      · simp [keysOf, h]
      · simp only [keysOf, List.map_cons, List.mem_cons]
        exact Or.inr (ih h)

theorem getEntry_eq_none_of_not_mem {k : String} {l : CacheMap α}
    (h : k ∉ keysOf l) : getEntry k l = none := by
  induction l with
  | nil => rfl
  | cons kv rest ih =>
    simp only [keysOf, List.map_cons, List.mem_cons, not_or] at h
    simp only [getEntry]
    rw [if_neg (fun he => h.1 he.symm)]
    exact ih h.2

theorem getEntry_removeEntry_self {k : String} {l : CacheMap α}
    (hnd : (keysOf l).Nodup) : getEntry k (removeEntry k l) = none := by
  induction l with
  | nil => rfl
  | cons kv rest ih =>
    simp only [keysOf, List.map_cons, List.nodup_cons] at hnd
    simp only [removeEntry]
    split_ifs with hk
    · exact getEntry_eq_none_of_not_mem (fun hm => hnd.1 (hk ▸ hm))
    · simp only [getEntry]
      rw [if_neg hk]
      exact ih hnd.2

theorem mem_insertEntry {kv : String × CacheEntry α} {k : String} {e : CacheEntry α}
    {l : CacheMap α} (h : kv ∈ insertEntry k e l) : kv = (k, e) ∨ kv ∈ l := by
  induction l with
  | nil => simpa [insertEntry] using h
  | cons kv' rest ih =>
    simp only [insertEntry] at h
    split_ifs at h with hk
    · rcases List.mem_cons.mp h with h | h
      · exact Or.inl h
      · exact Or.inr (List.mem_cons_of_mem _ h)
    · rcases List.mem_cons.mp h with h | h
      · exact Or.inr (h ▸ List.mem_cons_self _ _)
      · rcases ih h with h | h
        · exact Or.inl h
        · exact Or.inr (List.mem_cons_of_mem _ h)

theorem mem_insertEntry_of_ne {kv : String × CacheEntry α} {k : String} {e : CacheEntry α}
    {l : CacheMap α} (h : kv ∈ l) (hne : kv.1 ≠ k) : kv ∈ insertEntry k e l := by
  induction l with
  | nil => simp at h
  | cons kv' rest ih =>
    simp only [insertEntry]
    rcases List.mem_cons.mp h with h | h
    · split_ifs with hk
      · exact absurd (h ▸ hk) hne
      · exact h ▸ List.mem_cons_self _ _
    · split_ifs with hk
      · exact List.mem_cons_of_mem _ h
      · exact List.mem_cons_of_mem _ (ih h)

theorem keysOf_insertEntry_of_mem {k : String} (e : CacheEntry α) {l : CacheMap α}
    (h : k ∈ keysOf l) : keysOf (insertEntry k e l) = keysOf l := by
  induction l with
  | nil => simp [keysOf] at h
  | cons kv rest ih =>
    simp only [keysOf, List.map_cons, List.mem_cons] at h
    simp only [insertEntry]
    split_ifs with hk
    · simp [keysOf, hk]
    · rcases h with h | h
      · exact absurd h.symm hk
      · simp only [keysOf, List.map_cons] at ih ⊢
        rw [ih h]

theorem keysOf_insertEntry_of_not_mem {k : String} (e : CacheEntry α) {l : CacheMap α}
    (h : k ∉ keysOf l) : keysOf (insertEntry k e l) = keysOf l ++ [k] := by
  induction l with
  | nil => simp [keysOf, insertEntry]
  | cons kv rest ih =>
    simp only [keysOf, List.map_cons, List.mem_cons, not_or] at h
    simp only [insertEntry]
    split_ifs with hk
    · exact absurd hk.symm h.1
    · simp only [keysOf, List.map_cons, List.cons_append] at ih ⊢
      rw [ih h.2]

theorem length_insertEntry_le (k : String) (e : CacheEntry α) (l : CacheMap α) :
    (insertEntry k e l).length ≤ l.length + 1 := by
  induction l with
  | nil => simp [insertEntry]
  | cons kv rest ih =>
    simp only [insertEntry]
    split_ifs with hk
    · simp
    · simpa using Nat.succ_le_succ ih

theorem length_insertEntry_of_mem {k : String} (e : CacheEntry α) {l : CacheMap α}
    (h : k ∈ keysOf l) : (insertEntry k e l).length = l.length := by
  have := congrArg List.length (keysOf_insertEntry_of_mem e h)
  simpa [keysOf] using this

theorem keysOf_modifyEntry (k : String) (f : CacheEntry α → CacheEntry α)
    (l : CacheMap α) : keysOf (modifyEntry k f l) = keysOf l := by
  induction l with
  | nil => rfl
  | cons kv rest ih =>
    simp only [modifyEntry]
    split_ifs with hk
    · simp [keysOf]
    · simp only [keysOf, List.map_cons] at ih ⊢
      rw [ih]

theorem nodup_keysOf_insertEntry {k : String} (e : CacheEntry α) {l : CacheMap α}
    (h : (keysOf l).Nodup) : (keysOf (insertEntry k e l)).Nodup := by
  by_cases hk : k ∈ keysOf l
  · rw [keysOf_insertEntry_of_mem e hk]; exact h
  · rw [keysOf_insertEntry_of_not_mem e hk]
    simpa [List.nodup_append] using ⟨h, hk⟩

/-! ## Lemmas about the LRU eviction scan -/

/-- The scan's running minimum never increases. -/
theorem oldestScan_snd_le (l : CacheMap α) (acc : Option String × ℕ) :
    (oldestScan l acc).2 ≤ acc.2 := by
  induction l generalizing acc with
  | nil => exact le_refl _
  | cons kv rest ih =>
    simp only [oldestScan]
    split_ifs with h
    · exact le_trans (ih _) (le_of_lt h)
    · exact ih _

/-- The scan's result is no newer than any scanned entry. -/
theorem oldestScan_snd_le_mem (l : CacheMap α) (acc : Option String × ℕ) :
    ∀ kv ∈ l, (oldestScan l acc).2 ≤ kv.2.last_accessed := by
  induction l generalizing acc with
  | nil => intro kv h; simp at h
  | cons kv' rest ih =>
    intro kv hkv
    rcases List.mem_cons.mp hkv with h | h
    · subst h
      simp only [oldestScan]
      split_ifs with hlt
      · exact oldestScan_snd_le rest _
      · exact le_trans (oldestScan_snd_le rest _) (not_lt.mp hlt)
    · simp only [oldestScan]
      split_ifs <;> exact ih _ kv h

/-- The scan either returns its accumulator unchanged or the key and
stamp of some scanned entry. -/
theorem oldestScan_eq_acc_or_mem (l : CacheMap α) (acc : Option String × ℕ) :
    oldestScan l acc = acc ∨
      ∃ kv ∈ l, oldestScan l acc = (some kv.1, kv.2.last_accessed) := by
  induction l generalizing acc with
  | nil => exact Or.inl rfl
  | cons kv rest ih =>
    simp only [oldestScan]
    split_ifs with h
    · refine Or.inr ?_
      rcases ih (some kv.1, kv.2.last_accessed) with h' | ⟨kv', hkv', h'⟩
      · exact ⟨kv, List.mem_cons_self _ _, h'⟩
      · exact ⟨kv', List.mem_cons_of_mem _ hkv', h'⟩
    · rcases ih acc with h' | ⟨kv', hkv', h'⟩
      · exact Or.inl h'
      · exact Or.inr ⟨kv', List.mem_cons_of_mem _ hkv', h'⟩

/-- When some scanned entry is strictly older than the initial time, the
scan finds an entry (whose stamp is then minimal by
`oldestScan_snd_le_mem`). -/
theorem oldestScan_found {l : CacheMap α} {acc : Option String × ℕ}
    (h : ∃ kv ∈ l, kv.2.last_accessed < acc.2) :
    ∃ kv ∈ l, oldestScan l acc = (some kv.1, kv.2.last_accessed) := by
  rcases oldestScan_eq_acc_or_mem l acc with heq | hex
  · exfalso
    obtain ⟨kv, hkv, hlt⟩ := h
    have := oldestScan_snd_le_mem l acc kv hkv
    rw [heq] at this
    exact absurd (lt_of_le_of_lt this hlt) (lt_irrefl _)
  · exact hex

/-! ## Preservation of the cache invariants by `update` -/

/-- One `update` body preserves well-formedness and keeps the entry count
within a set `max_size ≥ 1`. -/
theorem updateBody_preserves (s : CacheState α) (n : ℕ) (p l : String) (v : List α)
    (hWF : WF s) (hmax : s.max_size = some n) (hn : 1 ≤ n)
    (hlen : s.cache.length ≤ n) :
    WF (updateBody s p l v) ∧ (updateBody s p l v).cache.length ≤ n ∧
      (updateBody s p l v).max_size = some n := by
  obtain ⟨hnd, hT⟩ := hWF
  have hc1 : (keysOf (evictIfNeeded s)).Nodup ∧ (evictIfNeeded s).length + 1 ≤ n ∧
      ∀ kv ∈ evictIfNeeded s, kv ∈ s.cache := by
    simp only [evictIfNeeded, hmax]
    split_ifs with hge
    · -- at capacity: the scan finds a strictly older entry to remove
      have hne : ∃ kv ∈ s.cache, kv.2.last_accessed < ((none : Option String), s.clock).2 := by
        have hpos : 0 < s.cache.length := lt_of_lt_of_le hn hge
        obtain ⟨kv, hkv⟩ := List.exists_mem_of_length_pos hpos
        exact ⟨kv, hkv, (hT kv hkv).1⟩
      obtain ⟨kv, hkv, hscan⟩ := oldestScan_found hne
      rw [hscan]
      dsimp only
      have hkmem : kv.1 ∈ keysOf s.cache := List.mem_map_of_mem Prod.fst hkv
      have hlep : (removeEntry kv.1 s.cache).length + 1 = s.cache.length :=
        length_removeEntry_of_mem hkmem
      have hnodup' : (keysOf (removeEntry kv.1 s.cache)).Nodup :=
        ((removeEntry_sublist kv.1 s.cache).map Prod.fst).nodup hnd
      exact ⟨hnodup', by omega, fun kv' h => mem_of_mem_removeEntry h⟩
    · exact ⟨hnd, by omega, fun kv h => h⟩
  obtain ⟨hnd1, hlen1, hsub⟩ := hc1
  constructor
  · constructor
    · exact nodup_keysOf_insertEntry _ hnd1
    · intro kv hkv
      simp only [updateBody] at hkv ⊢
      rcases mem_insertEntry hkv with h | h
      · subst h
        exact ⟨Nat.lt_succ_self s.clock, Nat.lt_succ_self s.clock⟩
      · have := hT kv (hsub kv h)
        constructor <;> omega
  · constructor
    · show (insertEntry (generateKey p l) _ (evictIfNeeded s)).length ≤ n
      exact le_trans (length_insertEntry_le _ _ _) hlen1
    · exact hmax

/-- `updateSeq` preserves well-formedness, the stored `max_size`, and the
capacity bound. -/
theorem updateSeq_preserves (n : ℕ) (hn : 1 ≤ n) :
    ∀ (ops : List (String × String × List α)) (s : CacheState α),
      WF s → s.max_size = some n → s.cache.length ≤ n →
      WF (updateSeq s ops) ∧ (updateSeq s ops).cache.length ≤ n := by
  intro ops
  induction ops with
  | nil => intro s hWF _ hlen; exact ⟨hWF, hlen⟩
  | cons op rest ih =>
    intro s hWF hmax hlen
    obtain ⟨hWF', hlen', hmax'⟩ :=
      updateBody_preserves s n op.1 op.2.1 op.2.2 hWF hmax hn hlen
    exact ih (updateBody s op.1 op.2.1 op.2.2) hWF' hmax' hlen'

theorem getEntry_some_mem {k : String} {e : CacheEntry α} {l : CacheMap α}
    (h : getEntry k l = some e) : (k, e) ∈ l := by
  induction l with
  | nil => simp [getEntry] at h
  | cons kv rest ih =>
    simp only [getEntry] at h
    split_ifs at h with hk
    · obtain rfl : kv.2 = e := Option.some.injEq _ _ ▸ h
      subst hk
      exact List.mem_cons_self _ _
    · exact List.mem_cons_of_mem _ (ih h)

/-! ## Claim theorems about the cache -/

/-- C8 (confirmed): whenever the synchronous `lookup` / `update` / `clear`
acquire their locks (no contention), they return exactly what the
asynchronous `alookup` / `aupdate` / `aclear` return and produce the same
successor state — map contents, statistics and clock alike. -/
theorem sync_async_agreement (α : Type) (s : CacheState α) (p l : String) (v : List α) :
    lookup false s p l = Except.ok (alookup s p l) ∧
    update false s p l v = Except.ok (aupdate s p l v) ∧
    clear false s = Except.ok (aclear s) := by
  exact ⟨rfl, rfl, rfl⟩

/-- C9 (confirmed): an `update` immediately followed by a `lookup` of the
same `(prompt, llm_string)` pair returns exactly the stored value, and on
a fresh store (any `max_size`, any clock) every lookup misses. -/
theorem cache_round_trip (α : Type) (s : CacheState α) (p l : String) (v : List α) :
    (lookupBody (updateBody s p l v) p l).1 = some v ∧
    ∀ (max_size : Option ℕ) (c : ℕ) (p' l' : String),
      (lookupBody (⟨[], max_size, CacheStats.init, c⟩ : CacheState α) p' l').1 = none := by
  constructor
  · have hg : getEntry (generateKey p l) (updateBody s p l v).cache =
        some ⟨v, s.clock, s.clock, 0⟩ := by
      show getEntry (generateKey p l)
          (insertEntry (generateKey p l) ⟨v, s.clock, s.clock, 0⟩ (evictIfNeeded s)) = _
      exact getEntry_insertEntry_self _ _ _
    simp only [lookupBody, hg]
  · intro max_size c p' l'
    simp [lookupBody, getEntry]

/-- Closed instance of `sync_async_agreement` at the two-entry scenario
store. -/
theorem sync_async_agreement_inst :
    lookup false lruStore2 "A" "llm" = Except.ok (alookup lruStore2 "A" "llm") ∧
    update false lruStore2 "A" "llm" [5] = Except.ok (aupdate lruStore2 "A" "llm" [5]) ∧
    clear false lruStore2 = Except.ok (aclear lruStore2) :=
  sync_async_agreement ℕ lruStore2 "A" "llm" [5]

/-- Closed instance of `cache_round_trip` at the two-entry scenario
store. -/
theorem cache_round_trip_inst :
    (lookupBody (updateBody lruStore2 "D" "llm" [4]) "D" "llm").1 = some [4] :=
  (cache_round_trip ℕ lruStore2 "D" "llm" [4]).1

/-- C5 (confirmed): starting from any store the constructor accepts with
`max_size = Some n`, after any finite sequence of updates the entry count
reported by `stats` never exceeds `n`. -/
theorem cache_capacity_invariant (α : Type) (n c0 : ℕ) (s₀ : CacheState α)
    (h : withMaxSize α (some n) c0 = some s₀)
    (ops : List (String × String × List α)) :
    (statsOf (updateSeq s₀ ops)).current_size ≤ n := by
  cases n with
  | zero => simp [withMaxSize] at h
  | succ m =>
    have hs : (⟨[], some (m + 1), CacheStats.init, c0⟩ : CacheState α) = s₀ := by
      simpa [withMaxSize] using h
    subst hs
    have hrun := updateSeq_preserves (m + 1) (by omega) ops
      ⟨[], some (m + 1), CacheStats.init, c0⟩
      ⟨List.nodup_nil, fun kv hkv => by simp at hkv⟩ rfl (by simp)
    simpa [statsOf] using hrun.2

/-- Closed instance of `cache_capacity_invariant`: the §8 LRU scenario
(capacity 2, three inserts) never holds more than two entries. -/
theorem cache_capacity_invariant_inst :
    (statsOf (updateSeq lruStore0
        [("A", "llm", [1]), ("B", "llm", [2]), ("C", "llm", [3])])).current_size ≤ 2 :=
  cache_capacity_invariant ℕ 2 0 lruStore0 rfl
    [("A", "llm", [1]), ("B", "llm", [2]), ("C", "llm", [3])]

/-- C2 (confirmed): on a well-formed store at capacity (`max_size` set and
reached, stored stamps pairwise distinct), `update` removes exactly the
entry whose `last_accessed` is oldest (strictly older than every other
entry's) before inserting the new entry; `lookup` never removes any entry
(its key set is always preserved); and the §8 scenario holds: capacity 2,
inserting `A`, `B`, `C` in order leaves `A` missing and `B`, `C`
present. -/
theorem cache_lru_eviction (α : Type) (s : CacheState α) (n : ℕ) (p l : String)
    (v : List α) (hWF : WF s) (hD : DistinctLA s) (hmax : s.max_size = some n)
    (hn : 1 ≤ n) (hlen : n ≤ s.cache.length) :
    (∃ k e, (k, e) ∈ s.cache ∧
       (oldestScan s.cache (none, s.clock)).1 = some k ∧
       (∀ kv ∈ s.cache, e.last_accessed ≤ kv.2.last_accessed) ∧
       (∀ kv ∈ s.cache, kv.1 ≠ k → e.last_accessed < kv.2.last_accessed) ∧
       (updateBody s p l v).cache =
         insertEntry (generateKey p l) ⟨v, s.clock, s.clock, 0⟩
           (removeEntry k s.cache)) ∧
    (∀ (t : CacheState α) (p' l' : String),
       keysOf (lookupBody t p' l').2.cache = keysOf t.cache) ∧
    ((lookupBody lruStore3 "A" "llm").1 = none ∧
     (lookupBody lruStore3 "B" "llm").1 = some [2] ∧
     (lookupBody lruStore3 "C" "llm").1 = some [3]) := by
  obtain ⟨hnd, hT⟩ := hWF
  refine ⟨?_, ?_, by decide, by decide, by decide⟩
  · have hne : ∃ kv ∈ s.cache, kv.2.last_accessed < ((none : Option String), s.clock).2 := by
      have hpos : 0 < s.cache.length := lt_of_lt_of_le (lt_of_lt_of_le Nat.zero_lt_one hn) hlen
      obtain ⟨kv, hkv⟩ := List.exists_mem_of_length_pos hpos
      exact ⟨kv, hkv, (hT kv hkv).1⟩
    obtain ⟨kv, hkv, hscan⟩ := oldestScan_found hne
    refine ⟨kv.1, kv.2, hkv, ?_, ?_, ?_, ?_⟩
    · rw [hscan]
    · intro kv' hkv'
      have h := oldestScan_snd_le_mem s.cache (none, s.clock) kv' hkv'
      rw [hscan] at h
      exact h
    · intro kv' hkv' hne'
      have hle := oldestScan_snd_le_mem s.cache (none, s.clock) kv' hkv'
      rw [hscan] at hle
      have hnekv : kv ≠ kv' := fun he => hne' (he ▸ rfl)
      have hD' : s.cache.Pairwise
          (fun a b : String × CacheEntry α => a.2.last_accessed ≠ b.2.last_accessed) := hD
      have hR := List.Pairwise.forall (fun _ _ h => Ne.symm h) hD' hkv hkv' hnekv
      exact lt_of_le_of_ne hle hR
    · have hev : evictIfNeeded s = removeEntry kv.1 s.cache := by
        simp only [evictIfNeeded, hmax]
        rw [if_pos hlen, hscan]
      show insertEntry (generateKey p l) ⟨v, s.clock, s.clock, 0⟩ (evictIfNeeded s) =
        insertEntry (generateKey p l) ⟨v, s.clock, s.clock, 0⟩ (removeEntry kv.1 s.cache)
      rw [hev]
  · intro t p' l'
    cases hg : getEntry (generateKey p' l') t.cache with
    | some e =>
      simp only [lookupBody, hg]
      exact keysOf_modifyEntry _ _ _
    | none => simp only [lookupBody, hg]

/-- Closed instance of `cache_lru_eviction`: in the §8 scenario, inserting
`C` into the full two-entry store evicts exactly the stale key
`A|||llm`, a lookup preserves the key set, and the three final lookups
come out as the spec says. -/
theorem cache_lru_eviction_inst :
    (updateBody lruStore2 "C" "llm" [3]).cache =
      insertEntry (generateKey "C" "llm") ⟨[3], 2, 2, 0⟩
        (removeEntry "A|||llm" lruStore2.cache) ∧
    keysOf (lookupBody lruStore3 "A" "llm").2.cache = keysOf lruStore3.cache ∧
    (lookupBody lruStore3 "A" "llm").1 = none ∧
    (lookupBody lruStore3 "B" "llm").1 = some [2] ∧
    (lookupBody lruStore3 "C" "llm").1 = some [3] := by
  obtain ⟨⟨k, e, hkE, hscan, hmin, hstrict, hcacheEq⟩, hlk, hs1, hs2, hs3⟩ :=
    cache_lru_eviction ℕ lruStore2 2 "C" "llm" [3] (by decide) (by decide) (by decide)
      (by decide) (by decide)
  have hA : (oldestScan lruStore2.cache (none, lruStore2.clock)).1 = some "A|||llm" := by
    decide
  rw [hscan] at hA
  obtain rfl : k = "A|||llm" := Option.some_inj.mp hA
  exact ⟨hcacheEq, hlk lruStore3 "A" "llm", hs1, hs2, hs3⟩

/-- C10 (confirmed): updating a key that is already present while the map
holds `max_size` entries still runs the LRU scan; when the scanned oldest
entry is a different key, that unrelated entry is evicted and the entry
count drops to `max_size - 1` after the update. -/
theorem update_existing_key_still_evicts (α : Type) (s : CacheState α) (n : ℕ)
    (p l : String) (v : List α) (k : String)
    (hWF : WF s) (hmax : s.max_size = some n) (hlen : s.cache.length = n) (hn : 1 ≤ n)
    (hkey : generateKey p l ∈ keysOf s.cache)
    (hk : (oldestScan s.cache (none, s.clock)).1 = some k)
    (hne : k ≠ generateKey p l) :
    (∃ e, (k, e) ∈ s.cache ∧ ∀ kv ∈ s.cache, e.last_accessed ≤ kv.2.last_accessed) ∧
    (updateBody s p l v).cache =
      insertEntry (generateKey p l) ⟨v, s.clock, s.clock, 0⟩ (removeEntry k s.cache) ∧
    (updateBody s p l v).cache.length + 1 = n := by
  obtain ⟨hnd, hT⟩ := hWF
  have hne0 : ∃ kv ∈ s.cache, kv.2.last_accessed < ((none : Option String), s.clock).2 := by
    have hpos : 0 < s.cache.length := by omega
    obtain ⟨kv, hkv⟩ := List.exists_mem_of_length_pos hpos
    exact ⟨kv, hkv, (hT kv hkv).1⟩
  obtain ⟨kv, hkv, hscan⟩ := oldestScan_found hne0
  have hk1 : kv.1 = k := by
    rw [hscan] at hk
    exact Option.some_inj.mp hk
  subst hk1
  have hev : evictIfNeeded s = removeEntry kv.1 s.cache := by
    simp only [evictIfNeeded, hmax]
    rw [if_pos (le_of_eq hlen.symm), hscan]
  refine ⟨⟨kv.2, hkv, ?_⟩, ?_, ?_⟩
  · intro kv' hkv'
    have h := oldestScan_snd_le_mem s.cache (none, s.clock) kv' hkv'
    rw [hscan] at h
    exact h
  · show insertEntry (generateKey p l) ⟨v, s.clock, s.clock, 0⟩ (evictIfNeeded s) =
      insertEntry (generateKey p l) ⟨v, s.clock, s.clock, 0⟩ (removeEntry kv.1 s.cache)
    rw [hev]
  · show (insertEntry (generateKey p l) ⟨v, s.clock, s.clock, 0⟩
      (evictIfNeeded s)).length + 1 = n
    rw [hev]
    have hmem : generateKey p l ∈ keysOf (removeEntry kv.1 s.cache) :=
      mem_keysOf_removeEntry_of_ne hkey (Ne.symm hne)
    rw [length_insertEntry_of_mem _ hmem]
    have hkm : kv.1 ∈ keysOf s.cache := List.mem_map_of_mem Prod.fst hkv
    have hrem := length_removeEntry_of_mem hkm
    omega

/-- Closed instance of `update_existing_key_still_evicts`: re-inserting
`B` into the full two-entry store evicts `A|||llm` and leaves a single
entry. -/
theorem update_existing_key_still_evicts_inst :
    (updateBody lruStore2 "B" "llm" [9]).cache =
      insertEntry (generateKey "B" "llm") ⟨[9], 2, 2, 0⟩
        (removeEntry "A|||llm" lruStore2.cache) ∧
    (updateBody lruStore2 "B" "llm" [9]).cache.length + 1 = 2 :=
  (update_existing_key_still_evicts ℕ lruStore2 2 "B" "llm" [9] "A|||llm"
    (by decide) (by decide) (by decide) (by decide) (by decide) (by decide)
    (by decide)).2

/-- C6 (confirmed): a TTL lookup of a stored entry removes it, counts a
miss (and not a hit) and returns `None` exactly when more than
`default_ttl` has elapsed since `created_at`; within the TTL it returns
the cached payload and counts a hit; and expiry is lazy — an update never
sweeps other (even expired) entries out of an unbounded store.  The §8
scenario holds: TTL 100, immediate `lookup(x) = Some`, and after 150 more
time units `lookup(x) = None`. -/
theorem ttl_lazy_expiration (α : Type) (c : TtlState α) (p l : String)
    (e : CacheEntry α) (hWF : WF c.inner)
    (hget : getEntry (generateKey p l) c.inner.cache = some e) :
    (c.default_ttl < c.inner.clock - e.created_at →
       (ttlLookup c p l).1 = none ∧
       getEntry (generateKey p l) (ttlLookup c p l).2.inner.cache = none ∧
       (ttlLookup c p l).2.inner.stats.misses = c.inner.stats.misses + 1 ∧
       (ttlLookup c p l).2.inner.stats.hits = c.inner.stats.hits) ∧
    (c.inner.clock - e.created_at ≤ c.default_ttl →
       (ttlLookup c p l).1 = some e.data ∧
       (ttlLookup c p l).2.inner.stats.hits = c.inner.stats.hits + 1 ∧
       (ttlLookup c p l).2.inner.stats.misses = c.inner.stats.misses) ∧
    (∀ (t : TtlState α) (p' l' : String) (v : List α),
       t.inner.max_size = none →
       ∀ kv ∈ t.inner.cache, kv.1 ≠ generateKey p' l' →
         kv ∈ (ttlUpdate t p' l' v).inner.cache) ∧
    ((ttlLookup ttlStore1 "x" "llm").1 = some [7] ∧
     (ttlLookup ttlStoreExp "x" "llm").1 = none) := by
  refine ⟨?_, ?_, ?_, by decide, by decide⟩
  · intro hexp
    have hb : isExpired e c.default_ttl c.inner.clock = true := by
      simpa [isExpired] using hexp
    simp only [ttlLookup, hget, hb, if_true]
    refine ⟨?_, ?_, ?_, ?_⟩ <;>
      first
        | exact getEntry_removeEntry_self hWF.1
        | trivial
  · intro hlive
    have hb : isExpired e c.default_ttl c.inner.clock = false := by
      simp only [isExpired, decide_eq_false_iff_not, not_lt]
      exact hlive
    simp only [ttlLookup, hget, hb, if_false]
    exact ⟨rfl, rfl, rfl⟩
  · intro t p' l' v hmaxT kv hkv hneT
    show kv ∈ insertEntry (generateKey p' l')
      ⟨v, t.inner.clock, t.inner.clock, 0⟩ (evictIfNeeded t.inner)
    have hev : evictIfNeeded t.inner = t.inner.cache := by
      simp [evictIfNeeded, hmaxT]
    rw [hev]
    exact mem_insertEntry_of_ne hkv hneT

/-- Closed instance of `ttl_lazy_expiration` at the expired §8 scenario
store: the lookup of `x` misses, removes the entry and bumps only the
miss counter. -/
theorem ttl_lazy_expiration_inst :
    (ttlLookup ttlStoreExp "x" "llm").1 = none ∧
    getEntry (generateKey "x" "llm") (ttlLookup ttlStoreExp "x" "llm").2.inner.cache
      = none ∧
    (ttlLookup ttlStoreExp "x" "llm").2.inner.stats.misses
      = ttlStoreExp.inner.stats.misses + 1 ∧
    (ttlLookup ttlStoreExp "x" "llm").2.inner.stats.hits
      = ttlStoreExp.inner.stats.hits :=
  (ttl_lazy_expiration ℕ ttlStoreExp "x" "llm" ⟨[7], 0, 1, 1⟩ (by decide)
    (by decide)).1 (by decide)

end FerricLink
